import Mathlib

/-!
Verification of the CipherX statistical cryptanalysis engine
(`backend/utils`): classical cipher transforms (Caesar, Atbash, Affine,
Vigenère, monoalphabetic substitution), the composite English-likeness
scorer, the chi-squared column-shift solver, and the ensemble
auto-detection layer.

Modelling conventions.  Python strings are embedded as lists of integer
code points (`PyStr`), mirroring the source's pervasive `ord`/`chr`
arithmetic; the character predicates (`isalpha`, `isupper`, ...) are
modelled for ASCII text, the domain the ciphers are designed for.
Python floats are embedded as rationals.  External services (the word
list and Zipf frequency table, the language-identification routine, the
transformer fluency scorer) and the transcendental library functions
`math.log2` / `math.exp` are abstracted as fields of an `Externals`
record, as are the random primitives used by the substitution search.
-/

namespace CipherX

/-- Python string, as the list of its character code points. -/
abbrev PyStr := List Int

/-- Code points of a Lean string literal (for concrete test inputs). -/
def S (s : String) : PyStr := s.data.map (fun c => (c.toNat : Int))

/-- ASCII model of Python `ch.isupper()`. -/
def isUpperCode (c : Int) : Bool := 65 ≤ c && c ≤ 90

/-- ASCII model of Python `ch.islower()`. -/
def isLowerCode (c : Int) : Bool := 97 ≤ c && c ≤ 122

/-- ASCII model of Python `ch.isalpha()`. -/
def isAlphaCode (c : Int) : Bool := isUpperCode c || isLowerCode c

/-- ASCII model of Python `ch.upper()` on one character. -/
def toUpperCode (c : Int) : Int := if isLowerCode c then c - 32 else c

/-- ASCII model of Python `ch.lower()` on one character. -/
def toLowerCode (c : Int) : Int := if isUpperCode c then c + 32 else c

/-- Membership of a code point in Python's whitespace class. -/
def isSpaceCode (c : Int) : Bool :=
  c = 32 || c = 9 || c = 10 || c = 13 || c = 12 || c = 11

/-- Python `text.upper()`. -/
def pyUpper (t : PyStr) : PyStr := t.map toUpperCode

/-- Python `text.lower()`. -/
def pyLower (t : PyStr) : PyStr := t.map toLowerCode

-- ---------------------------------------------------------------------
-- caesar.py
-- ---------------------------------------------------------------------

/-- Per-character body of the loop in `caesar_encrypt`. -/
def caesarEncChar (shift : Int) (c : Int) : Int :=
  if isAlphaCode c then
    let base : Int := if isUpperCode c then 65 else 97
    (c - base + shift) % 26 + base
  else c

/-- Per-character body of the loop in `caesar_decrypt`. -/
def caesarDecChar (shift : Int) (c : Int) : Int :=
  if isAlphaCode c then
    let base : Int := if isUpperCode c then 65 else 97
    (c - base - shift) % 26 + base
  else c

/-- The function `caesar_encrypt` of `caesar.py`. -/
def caesar_encrypt (plaintext : PyStr) (shift : Int) : PyStr :=
  plaintext.map (caesarEncChar shift)

/-- The function `caesar_decrypt` of `caesar.py`. -/
def caesar_decrypt (ciphertext : PyStr) (shift : Int) : PyStr :=
  ciphertext.map (caesarDecChar shift)

-- ---------------------------------------------------------------------
-- atbash.py
-- ---------------------------------------------------------------------

/-- Per-character body of the loop in `atbash_decrypt`. -/
def atbashChar (c : Int) : Int :=
  if isAlphaCode c then
    let base : Int := if isUpperCode c then 65 else 97
    base + (25 - (c - base))
  else c

/-- The function `atbash_decrypt` of `atbash.py` (same map both ways). -/
def atbash_decrypt (ciphertext : PyStr) : PyStr :=
  ciphertext.map atbashChar

-- ---------------------------------------------------------------------
-- vigenere.py: decryption, and the reference encryption of its demo
-- ---------------------------------------------------------------------

/-- Loop of `vigenere_decrypt`, threading the running key index. -/
def vigenereDecGo (key : PyStr) : PyStr → Nat → PyStr
  | [], _ => []
  | c :: rest, ki =>
    if isAlphaCode c then
      let base : Int := if isUpperCode c then 65 else 97
      let shift : Int := key.getD (ki % key.length) 65 - 65
      ((c - base - shift) % 26 + base) :: vigenereDecGo key rest (ki + 1)
    else
      c :: vigenereDecGo key rest ki

/-- The function `vigenere_decrypt` of `vigenere.py`: the key is
upper-cased once, then the key index advances only on alphabetic
characters. -/
def vigenere_decrypt (ciphertext : PyStr) (key : PyStr) : PyStr :=
  vigenereDecGo (pyUpper key) ciphertext 0

/-- Loop of the demo's local `encrypt`, threading the key index. -/
def vigenereEncGo (key : PyStr) : PyStr → Nat → PyStr
  | [], _ => []
  | c :: rest, ki =>
    if isAlphaCode c then
      let base : Int := if isUpperCode c then 65 else 97
      let shift : Int := toUpperCode (key.getD (ki % key.length) 65) - 65
      ((c - base + shift) % 26 + base) :: vigenereEncGo key rest (ki + 1)
    else
      c :: vigenereEncGo key rest ki

/-- The local function `encrypt` inside `demo()` of `vigenere.py`:
each used key letter is upper-cased on the fly. -/
def vigenere_encrypt (text : PyStr) (key : PyStr) : PyStr :=
  vigenereEncGo key text 0

-- ---------------------------------------------------------------------
-- Shared character predicates on whole strings
-- ---------------------------------------------------------------------

/-- The plaintext alphabet of claim interest: letters and spaces only. -/
def lettersAndSpaces (t : PyStr) : Prop :=
  ∀ c ∈ t, isAlphaCode c = true ∨ c = 32

instance (t : PyStr) : Decidable (lettersAndSpaces t) := by
  unfold lettersAndSpaces; infer_instance

/-- A string made of alphabetic characters only. -/
def allAlpha (t : PyStr) : Prop := ∀ c ∈ t, isAlphaCode c = true

instance (t : PyStr) : Decidable (allAlpha t) := by
  unfold allAlpha; infer_instance

-- ---------------------------------------------------------------------
-- substitution.py: applying a mapping to ciphertext
-- ---------------------------------------------------------------------

/-- The function `apply_mapping_to_text` of `substitution.py`: the text
is upper-cased first, each alphabetic character is replaced by its image
under the mapping (question mark, code 63, when unmapped), and other
characters pass through. -/
def apply_mapping_to_text (text : PyStr) (mapping : List (Int × Int)) : PyStr :=
  (pyUpper text).map (fun ch =>
    if isAlphaCode ch then (mapping.lookup ch).getD 63 else ch)

-- ---------------------------------------------------------------------
-- Character-level round-trip lemmas
-- ---------------------------------------------------------------------

theorem caesarDecChar_encChar (s c : Int) :
    caesarDecChar s (caesarEncChar s c) = c := by
  unfold caesarEncChar caesarDecChar isAlphaCode isUpperCode isLowerCode
  simp only [Bool.or_eq_true, Bool.and_eq_true, decide_eq_true_eq]
  split_ifs <;> omega

theorem atbashChar_involutive (c : Int) : atbashChar (atbashChar c) = c := by
  unfold atbashChar isAlphaCode isUpperCode isLowerCode
  simp only [Bool.or_eq_true, Bool.and_eq_true, decide_eq_true_eq]
  split_ifs <;> omega

theorem caesar_roundtrip (p : PyStr) (s : Int) :
    caesar_decrypt (caesar_encrypt p s) s = p := by
  unfold caesar_encrypt caesar_decrypt
  rw [List.map_map]
  have h : ∀ c ∈ p, (caesarDecChar s ∘ caesarEncChar s) c = id c := by
    intro c _
    exact caesarDecChar_encChar s c
  rw [List.map_congr_left h, List.map_id]

theorem atbash_involutive (t : PyStr) :
    atbash_decrypt (atbash_decrypt t) = t := by
  unfold atbash_decrypt
  rw [List.map_map]
  have h : ∀ c ∈ t, (atbashChar ∘ atbashChar) c = id c := by
    intro c _
    exact atbashChar_involutive c
  rw [List.map_congr_left h, List.map_id]

theorem isUpperCode_iff (c : Int) : isUpperCode c = true ↔ 65 ≤ c ∧ c ≤ 90 := by
  simp [isUpperCode]

theorem isLowerCode_iff (c : Int) : isLowerCode c = true ↔ 97 ≤ c ∧ c ≤ 122 := by
  simp [isLowerCode]

theorem isAlphaCode_iff (c : Int) :
    isAlphaCode c = true ↔ (65 ≤ c ∧ c ≤ 90) ∨ (97 ≤ c ∧ c ≤ 122) := by
  simp [isAlphaCode, isUpperCode, isLowerCode]

theorem isUpperCode_false_iff (c : Int) :
    isUpperCode c = false ↔ ¬(65 ≤ c ∧ c ≤ 90) := by
  rw [← Bool.not_eq_true, isUpperCode_iff]

/-- Facts about an upper-case letter shifted forward: the result is an
upper-case letter and shifting it back by the same amount recovers it. -/
theorem shift_cancel_upper (s c : Int) (h : 65 ≤ c ∧ c ≤ 90) :
    isAlphaCode ((c - 65 + s) % 26 + 65) = true ∧
    isUpperCode ((c - 65 + s) % 26 + 65) = true ∧
    (((c - 65 + s) % 26 + 65) - 65 - s) % 26 + 65 = c := by
  refine ⟨?_, ?_, ?_⟩
  · rw [isAlphaCode_iff]; left; omega
  · rw [isUpperCode_iff]; omega
  · omega

/-- Facts about a lower-case letter shifted forward: the result is a
lower-case letter and shifting it back by the same amount recovers it. -/
theorem shift_cancel_lower (s c : Int) (h : 97 ≤ c ∧ c ≤ 122) :
    isAlphaCode ((c - 97 + s) % 26 + 97) = true ∧
    isUpperCode ((c - 97 + s) % 26 + 97) = false ∧
    (((c - 97 + s) % 26 + 97) - 97 - s) % 26 + 97 = c := by
  refine ⟨?_, ?_, ?_⟩
  · rw [isAlphaCode_iff]; right; omega
  · rw [isUpperCode_false_iff]; omega
  · omega

theorem pyUpper_getD (key : PyStr) (i : Nat) (hlt : i < key.length) :
    (pyUpper key).getD i 65 = toUpperCode (key.getD i 65) := by
  rw [List.getD_eq_getElem _ _ (by simpa [pyUpper] using hlt),
    List.getD_eq_getElem _ _ hlt]
  simp [pyUpper]

theorem vigenereDecGo_encGo (key : PyStr) (hk : key ≠ []) :
    ∀ (t : PyStr) (ki : Nat),
      vigenereDecGo (pyUpper key) (vigenereEncGo key t ki) ki = t := by
  intro t
  induction t with
  | nil => intro ki; rfl
  | cons c rest ih =>
    intro ki
    have hpos : 0 < key.length := List.length_pos.mpr hk
    have hlt : ki % key.length < key.length := Nat.mod_lt _ hpos
    have hgetD : (pyUpper key).getD (ki % key.length) 65 =
        toUpperCode (key.getD (ki % key.length) 65) := pyUpper_getD key _ hlt
    have hlen : (pyUpper key).length = key.length := List.length_map _ _
    by_cases hc : isAlphaCode c = true
    · by_cases hu : isUpperCode c = true
      · have hcb : 65 ≤ c ∧ c ≤ 90 := (isUpperCode_iff c).mp hu
        obtain ⟨ha2, hu2, hcan⟩ :=
          shift_cancel_upper (toUpperCode (key.getD (ki % key.length) 65) - 65) c hcb
        simp only [vigenereEncGo, vigenereDecGo, hc, hu, if_true, hlen,
          hgetD, ha2, hu2]
        rw [ih (ki + 1)]
        simp only [List.cons.injEq, and_true]
        exact hcan
      · have hu3 : isUpperCode c = false := by
          revert hu; cases isUpperCode c <;> simp
        have hcb : 97 ≤ c ∧ c ≤ 122 := by
          rcases (isAlphaCode_iff c).mp hc with h1 | h2
          · exact absurd ((isUpperCode_iff c).mpr h1) (by simp [hu3])
          · exact h2
        obtain ⟨ha2, hu2, hcan⟩ :=
          shift_cancel_lower (toUpperCode (key.getD (ki % key.length) 65) - 65) c hcb
        simp only [vigenereEncGo, vigenereDecGo, hc, hu3, if_true, if_false,
          Bool.false_eq_true, hlen, hgetD, ha2, hu2]
        rw [ih (ki + 1)]
        simp only [List.cons.injEq, and_true]
        exact hcan
    · have hc2 : isAlphaCode c = false := by
        revert hc; cases isAlphaCode c <;> simp
      simp only [vigenereEncGo, vigenereDecGo, hc2, Bool.false_eq_true,
        if_false]
      rw [ih ki]

theorem vigenere_roundtrip (p : PyStr) (k : PyStr) (hk : k ≠ []) :
    vigenere_decrypt (vigenere_encrypt p k) k = p := by
  unfold vigenere_decrypt vigenere_encrypt
  exact vigenereDecGo_encGo k hk p 0

-- ---------------------------------------------------------------------
-- Positional invariants of the decryption transforms
-- ---------------------------------------------------------------------

theorem isLowerCode_false_iff (c : Int) :
    isLowerCode c = false ↔ ¬(97 ≤ c ∧ c ≤ 122) := by
  rw [← Bool.not_eq_true, isLowerCode_iff]

theorem unshift_facts_upper (s c : Int) (h : 65 ≤ c ∧ c ≤ 90) :
    isAlphaCode ((c - 65 - s) % 26 + 65) = true ∧
    isUpperCode ((c - 65 - s) % 26 + 65) = true ∧
    isLowerCode ((c - 65 - s) % 26 + 65) = false := by
  refine ⟨?_, ?_, ?_⟩
  · rw [isAlphaCode_iff]; left; omega
  · rw [isUpperCode_iff]; omega
  · rw [isLowerCode_false_iff]; omega

theorem unshift_facts_lower (s c : Int) (h : 97 ≤ c ∧ c ≤ 122) :
    isAlphaCode ((c - 97 - s) % 26 + 97) = true ∧
    isUpperCode ((c - 97 - s) % 26 + 97) = false ∧
    isLowerCode ((c - 97 - s) % 26 + 97) = true := by
  refine ⟨?_, ?_, ?_⟩
  · rw [isAlphaCode_iff]; right; omega
  · rw [isUpperCode_false_iff]; omega
  · rw [isLowerCode_iff]; omega

theorem alpha_case_split (c : Int) (h : isAlphaCode c = true) :
    (isUpperCode c = true ∧ isLowerCode c = false ∧ 65 ≤ c ∧ c ≤ 90) ∨
    (isUpperCode c = false ∧ isLowerCode c = true ∧ 97 ≤ c ∧ c ≤ 122) := by
  rcases (isAlphaCode_iff c).mp h with h1 | h2
  · exact Or.inl ⟨(isUpperCode_iff c).mpr h1,
      (isLowerCode_false_iff c).mpr (by omega), h1⟩
  · exact Or.inr ⟨(isUpperCode_false_iff c).mpr (by omega),
      (isLowerCode_iff c).mpr h2, h2⟩

/-- Per-character behaviour of `caesar_decrypt`: non-alphabetic
characters pass through, alphabetic characters keep their case. -/
theorem caesarDecChar_behaviour (s c : Int) :
    (isAlphaCode c = false → caesarDecChar s c = c) ∧
    (isAlphaCode c = true →
      isUpperCode (caesarDecChar s c) = isUpperCode c ∧
      isLowerCode (caesarDecChar s c) = isLowerCode c) := by
  constructor
  · intro h; unfold caesarDecChar; simp [h]
  · intro h
    unfold caesarDecChar
    rcases alpha_case_split c h with ⟨hu, hl, hb⟩ | ⟨hu, hl, hb⟩
    · obtain ⟨_, h2, h3⟩ := unshift_facts_upper s c hb
      simp [h, hu, hl, h2, h3]
    · obtain ⟨_, h2, h3⟩ := unshift_facts_lower s c hb
      simp [h, hu, hl, h2, h3]

theorem getD_map_of_lt (l : List Int) (f : Int → Int) (i : Nat)
    (h : i < l.length) (d e : Int) :
    (l.map f).getD i d = f (l.getD i e) := by
  rw [List.getD_eq_getElem _ _ (by simpa using h),
    List.getD_eq_getElem _ _ h]
  simp

/-- Positional behaviour of `vigenereDecGo`: length is preserved,
non-alphabetic characters pass through at their position, alphabetic
characters keep their case. -/
theorem vigenereDecGo_positions (k : PyStr) :
    ∀ (t : PyStr) (ki : Nat),
      (vigenereDecGo k t ki).length = t.length ∧
      ∀ i, i < t.length →
        (isAlphaCode (t.getD i 0) = false →
          (vigenereDecGo k t ki).getD i 0 = t.getD i 0) ∧
        (isAlphaCode (t.getD i 0) = true →
          isUpperCode ((vigenereDecGo k t ki).getD i 0) =
            isUpperCode (t.getD i 0) ∧
          isLowerCode ((vigenereDecGo k t ki).getD i 0) =
            isLowerCode (t.getD i 0)) := by
  intro t
  induction t with
  | nil => intro ki; exact ⟨rfl, fun i hi => absurd hi (by simp)⟩
  | cons c rest ih =>
    intro ki
    by_cases hc : isAlphaCode c = true
    · rcases alpha_case_split c hc with ⟨hu, hl, hb⟩ | ⟨hu, hl, hb⟩
      · simp only [vigenereDecGo, hc, hu, if_true]
        obtain ⟨hal, hup, hlo⟩ :=
          unshift_facts_upper (k.getD (ki % k.length) 65 - 65) c hb
        refine ⟨by simp [(ih (ki + 1)).1], ?_⟩
        intro i hi
        match i with
        | 0 =>
          simp only [List.getD_cons_zero]
          exact ⟨fun hf => absurd hc (by simp [hf]),
            fun _ => by rw [hup, hlo, hu, hl]; exact ⟨rfl, rfl⟩⟩
        | i + 1 =>
          simp only [List.getD_cons_succ]
          exact (ih (ki + 1)).2 i (by simpa using hi)
      · simp only [vigenereDecGo, hc, hu, Bool.false_eq_true, if_false,
          if_true]
        obtain ⟨hal, hup, hlo⟩ :=
          unshift_facts_lower (k.getD (ki % k.length) 65 - 65) c hb
        refine ⟨by simp [(ih (ki + 1)).1], ?_⟩
        intro i hi
        match i with
        | 0 =>
          simp only [List.getD_cons_zero]
          exact ⟨fun hf => absurd hc (by simp [hf]),
            fun _ => by rw [hup, hlo, hu, hl]; exact ⟨rfl, rfl⟩⟩
        | i + 1 =>
          simp only [List.getD_cons_succ]
          exact (ih (ki + 1)).2 i (by simpa using hi)
    · have hc2 : isAlphaCode c = false := by
        revert hc; cases isAlphaCode c <;> simp
      simp only [vigenereDecGo, hc2, Bool.false_eq_true, if_false]
      refine ⟨by simp [(ih ki).1], ?_⟩
      intro i hi
      match i with
      | 0 =>
        simp only [List.getD_cons_zero]
        exact ⟨fun _ => by trivial, fun ht => absurd ht (by simp [hc2])⟩
      | i + 1 =>
        simp only [List.getD_cons_succ]
        exact (ih ki).2 i (by simpa using hi)

-- ---------------------------------------------------------------------
-- Claim C2: round trips
-- ---------------------------------------------------------------------

/-- C2: for every plaintext of letters and spaces and every shift in
0..25, `caesar_decrypt` inverts `caesar_encrypt`; for every non-empty
alphabetic key, `vigenere_decrypt` inverts the Vigenère encryption; and
`atbash_decrypt` is self-inverse on every text. -/
theorem claim_C2_roundtrips :
    (∀ (p : PyStr) (s : Int), lettersAndSpaces p → 0 ≤ s → s ≤ 25 →
      caesar_decrypt (caesar_encrypt p s) s = p) ∧
    (∀ (p k : PyStr), lettersAndSpaces p → k ≠ [] → allAlpha k →
      vigenere_decrypt (vigenere_encrypt p k) k = p) ∧
    (∀ t : PyStr, atbash_decrypt (atbash_decrypt t) = t) :=
  ⟨fun p s _ _ _ => caesar_roundtrip p s,
   fun p k _ hk _ => vigenere_roundtrip p k hk,
   atbash_involutive⟩

/-- Witness for C2 at concrete inputs. -/
theorem claim_C2_roundtrips_witness :
    caesar_decrypt (caesar_encrypt (S "Hello World") 3) 3 = S "Hello World" ∧
    vigenere_decrypt (vigenere_encrypt (S "ATTACK AT DAWN") (S "LEMON"))
      (S "LEMON") = S "ATTACK AT DAWN" ∧
    atbash_decrypt (atbash_decrypt (S "Hello, World!")) = S "Hello, World!" :=
  ⟨claim_C2_roundtrips.1 (S "Hello World") 3 (by decide) (by decide)
      (by decide),
   claim_C2_roundtrips.2.1 (S "ATTACK AT DAWN") (S "LEMON") (by decide)
      (by decide) (by decide),
   claim_C2_roundtrips.2.2 (S "Hello, World!")⟩

-- ---------------------------------------------------------------------
-- Claim C3: pass-through of non-letters and case preservation
-- ---------------------------------------------------------------------

/-- C3 counterexample: `apply_mapping_to_text` does not preserve case.
Applying the mapping sending the letter A (65) to B (66) to the
lower-case input string consisting of the single letter a produces the
upper-case letter B, so the alphabetic output character does not have
the case of the corresponding input character. -/
theorem claim_C3_counterexample :
    isLowerCode ((S "a").getD 0 0) = true ∧
    apply_mapping_to_text (S "a") [(65, 66)] = S "B" ∧
    isLowerCode ((apply_mapping_to_text (S "a") [(65, 66)]).getD 0 0) =
      false := by
  decide

/-- C3 amended: Caesar and Vigenère decryption leave non-alphabetic
characters unchanged in place and preserve each letter's case; the
substitution mapping application leaves non-alphabetic characters
unchanged in place but replaces each letter by the image of its
upper-cased form (so letter case is not preserved there). -/
theorem claim_C3_passthrough :
    (∀ (ct : PyStr) (s : Int),
      (caesar_decrypt ct s).length = ct.length ∧
      ∀ i, i < ct.length →
        (isAlphaCode (ct.getD i 0) = false →
          (caesar_decrypt ct s).getD i 0 = ct.getD i 0) ∧
        (isAlphaCode (ct.getD i 0) = true →
          isUpperCode ((caesar_decrypt ct s).getD i 0) =
            isUpperCode (ct.getD i 0) ∧
          isLowerCode ((caesar_decrypt ct s).getD i 0) =
            isLowerCode (ct.getD i 0))) ∧
    (∀ (ct k : PyStr),
      (vigenere_decrypt ct k).length = ct.length ∧
      ∀ i, i < ct.length →
        (isAlphaCode (ct.getD i 0) = false →
          (vigenere_decrypt ct k).getD i 0 = ct.getD i 0) ∧
        (isAlphaCode (ct.getD i 0) = true →
          isUpperCode ((vigenere_decrypt ct k).getD i 0) =
            isUpperCode (ct.getD i 0) ∧
          isLowerCode ((vigenere_decrypt ct k).getD i 0) =
            isLowerCode (ct.getD i 0))) ∧
    (∀ (t : PyStr) (m : List (Int × Int)),
      (apply_mapping_to_text t m).length = t.length ∧
      ∀ i, i < t.length →
        (isAlphaCode (t.getD i 0) = false →
          (apply_mapping_to_text t m).getD i 0 = t.getD i 0) ∧
        (isAlphaCode (t.getD i 0) = true →
          (apply_mapping_to_text t m).getD i 0 =
            (m.lookup (toUpperCode (t.getD i 0))).getD 63)) := by
  refine ⟨?_, ?_, ?_⟩
  · intro ct s
    refine ⟨by simp [caesar_decrypt], ?_⟩
    intro i hi
    have hg : (caesar_decrypt ct s).getD i 0 =
        caesarDecChar s (ct.getD i 0) :=
      getD_map_of_lt ct (caesarDecChar s) i hi 0 0
    rw [hg]
    exact caesarDecChar_behaviour s (ct.getD i 0)
  · intro ct k
    have h := vigenereDecGo_positions (pyUpper k) ct 0
    exact ⟨h.1, h.2⟩
  · intro t m
    refine ⟨by simp [apply_mapping_to_text, pyUpper], ?_⟩
    intro i hi
    have hup : (pyUpper t).getD i 0 = toUpperCode (t.getD i 0) :=
      getD_map_of_lt t toUpperCode i hi 0 0
    have hg : (apply_mapping_to_text t m).getD i 0 =
        (fun ch => if isAlphaCode ch then (m.lookup ch).getD 63 else ch)
          ((pyUpper t).getD i 0) := by
      unfold apply_mapping_to_text
      exact getD_map_of_lt (pyUpper t) _ i (by simpa [pyUpper] using hi) 0 0
    rw [hg, hup]
    constructor
    · intro hf
      have h1 : isLowerCode (t.getD i 0) = false := by
        cases hl : isLowerCode (t.getD i 0)
        · rfl
        · have hcon : isAlphaCode (t.getD i 0) = true := by
            unfold isAlphaCode; rw [hl]; simp
          rw [hcon] at hf; cases hf
      have h2 : toUpperCode (t.getD i 0) = t.getD i 0 := by
        unfold toUpperCode; rw [h1]; simp
      rw [h2]
      simp only [hf, Bool.false_eq_true, if_false]
    · intro ht
      have ha : isAlphaCode (toUpperCode (t.getD i 0)) = true := by
        rcases alpha_case_split _ ht with ⟨_, hl, hb⟩ | ⟨_, hl, hb⟩ <;>
          unfold toUpperCode <;> rw [isAlphaCode_iff] <;>
          simp only [hl, Bool.false_eq_true, if_false, if_true] <;> omega
      simp only [ha, if_true]

/-- Witness for C3 at concrete inputs. -/
theorem claim_C3_passthrough_witness :
    (caesar_decrypt (S "Ab, c!") 3).getD 2 0 = (S "Ab, c!").getD 2 0 ∧
    isUpperCode ((vigenere_decrypt (S "Ab, c!") (S "key")).getD 0 0) =
      isUpperCode ((S "Ab, c!").getD 0 0) ∧
    (apply_mapping_to_text (S "a b!") [(65, 90)]).getD 1 0 =
      (S "a b!").getD 1 0 := by
  refine ⟨?_, ?_, ?_⟩
  · exact ((claim_C3_passthrough.1 (S "Ab, c!") 3).2 2 (by decide)).1
      (by decide)
  · exact (((claim_C3_passthrough.2.1 (S "Ab, c!") (S "key")).2 0
      (by decide)).2 (by decide)).1
  · exact ((claim_C3_passthrough.2.2 (S "a b!") [(65, 90)]).2 1
      (by decide)).1 (by decide)

-- ---------------------------------------------------------------------
-- External services and library functions
-- ---------------------------------------------------------------------

/-- Modelled from the spec: the external Lexicon service (the nltk word
list and the wordfreq Zipf frequency table, a 0..7 scale per the
source's own comment), the external language-identification routine
(an English probability), the external transformer fluency scorer, and
the transcendental library functions `math.log2` and `math.exp`, none
of which are implemented inside the repository. -/
structure Externals where
  isWord : PyStr → Bool
  zipf : PyStr → ℚ
  zipf_nonneg : ∀ w, 0 ≤ zipf w
  langProb : PyStr → ℚ
  langProb_nonneg : ∀ t, 0 ≤ langProb t
  langProb_le_one : ∀ t, langProb t ≤ 1
  log2 : ℚ → ℚ
  exp : ℚ → ℚ
  tscore : PyStr → ℚ
  words : List PyStr

/-- Python `round(x, k)` on a value scaled by `m = 10^k`: round to the
nearest multiple of `1/m`, ties to even (banker's rounding). -/
def pyRoundMul (x : ℚ) (m : ℚ) : ℚ :=
  let y := x * m
  let n : Int := y.floor
  let r := y - (n : ℚ)
  let k : Int :=
    if r < 1/2 then n
    else if 1/2 < r then n + 1
    else if n % 2 = 0 then n else n + 1
  (k : ℚ) / m

/-- Python `round(x, 4)`. -/
def round4 (x : ℚ) : ℚ := pyRoundMul x 10000

/-- Python `round(x, 2)`. -/
def round2 (x : ℚ) : ℚ := pyRoundMul x 100

-- ---------------------------------------------------------------------
-- Tokenization helpers shared by the scorers
-- ---------------------------------------------------------------------

/-- Python `re.findall(r"[A-Za-z]+", text)`: maximal alphabetic runs. -/
def alphaTokens : PyStr → List PyStr
  | [] => []
  | c :: rest =>
    if isAlphaCode c then
      (c :: rest.takeWhile (fun d => isAlphaCode d)) ::
        alphaTokens (rest.dropWhile (fun d => isAlphaCode d))
    else alphaTokens rest
termination_by l => l.length
decreasing_by
  · exact Nat.lt_succ_of_le (List.dropWhile_suffix _).length_le
  · exact Nat.lt_succ_self _

/-- Python `text.split()`: maximal non-whitespace runs. -/
def pySplit : PyStr → List PyStr
  | [] => []
  | c :: rest =>
    if isSpaceCode c then pySplit rest
    else
      (c :: rest.takeWhile (fun d => !isSpaceCode d)) ::
        pySplit (rest.dropWhile (fun d => !isSpaceCode d))
termination_by l => l.length
decreasing_by
  · exact Nat.lt_succ_self _
  · exact Nat.lt_succ_of_le (List.dropWhile_suffix _).length_le

/-- Python `text.strip()`. -/
def pyStrip (t : PyStr) : PyStr :=
  ((t.dropWhile (fun c => isSpaceCode c)).reverse.dropWhile
    (fun c => isSpaceCode c)).reverse

/-- First substitution of `clean_text`: every character that is neither
a letter nor whitespace becomes a space. -/
def sanitizeChar (c : Int) : Int :=
  if isAlphaCode c || isSpaceCode c then c else 32

/-- Second substitution of `clean_text`: each whitespace run collapses
to a single space. -/
def collapseWs : PyStr → PyStr
  | [] => []
  | c :: rest =>
    if isSpaceCode c then
      32 :: collapseWs (rest.dropWhile (fun d => isSpaceCode d))
    else c :: collapseWs rest
termination_by l => l.length
decreasing_by
  · exact Nat.lt_succ_of_le (List.dropWhile_suffix _).length_le
  · exact Nat.lt_succ_self _

/-- The function `clean_text` of `english_scorer.py`. -/
def clean_text (t : PyStr) : PyStr :=
  pyStrip (collapseWs (t.map sanitizeChar))

-- ---------------------------------------------------------------------
-- english_scorer.py: metric components and the composite cheap_score
-- ---------------------------------------------------------------------

/-- The function `word_ratio` of `english_scorer.py`. -/
def word_ratio (ext : Externals) (t : PyStr) : ℚ :=
  let ws := alphaTokens t
  if ws = [] then 0
  else ((ws.filter (fun w => ext.isWord (pyLower w))).length : ℚ) / ws.length

/-- The function `freq_score` of `english_scorer.py`. -/
def freq_score (ext : Externals) (t : PyStr) : ℚ :=
  let ws := alphaTokens t
  if ws = [] then 0
  else ((ws.map (fun w => ext.zipf (pyLower w))).sum / ws.length) / 7

/-- Adjacent character pairs of a string (the two-character slices). -/
def adjacentPairs : PyStr → List (Int × Int)
  | [] => []
  | [_] => []
  | a :: b :: rest => (a, b) :: adjacentPairs (b :: rest)

/-- The COMMON_BIGRAMS set of `english_scorer.py`, as code-point
pairs: TH HE IN ER AN RE ON AT EN ND TI ES OR TE OF ED IS IT AL AR ST
TO NT HA. -/
def COMMON_BIGRAMS : List (Int × Int) :=
  [(84, 72), (72, 69), (73, 78), (69, 82), (65, 78), (82, 69), (79, 78),
   (65, 84), (69, 78), (78, 68), (84, 73), (69, 83), (79, 82), (84, 69),
   (79, 70), (69, 68), (73, 83), (73, 84), (65, 76), (65, 82), (83, 84),
   (84, 79), (78, 84), (72, 65)]

/-- The function `bigram_score` of `english_scorer.py`: fraction of
fully alphabetic adjacent pairs of the upper-cased text that are common
English bigrams. -/
def bigram_score (t : PyStr) : ℚ :=
  let bs := (adjacentPairs (pyUpper t)).filter
    (fun p => isAlphaCode p.1 && isAlphaCode p.2)
  if bs = [] then 0
  else ((bs.filter (fun p => COMMON_BIGRAMS.contains p)).length : ℚ) / bs.length

/-- Shannon entropy of the character distribution of the text, with the
logarithm supplied by the Externals record. -/
def entropyVal (ext : Externals) (t : PyStr) : ℚ :=
  -((t.dedup.map (fun c =>
      let p : ℚ := (t.count c : ℚ) / t.length
      p * ext.log2 p)).sum)

/-- The function `entropy_score` of `english_scorer.py`. -/
def entropy_score (ext : Externals) (t : PyStr) : ℚ :=
  if t = [] then 0
  else max 0 (1 - |4 - entropyVal ext t| / 4)

/-- The function `lang_score` of `english_scorer.py`: texts shorter
than four characters score zero, otherwise the external English
probability is returned. -/
def lang_score (ext : Externals) (t : PyStr) : ℚ :=
  let t2 := pyStrip t
  if t2.length < 4 then 0 else ext.langProb t2

/-- The function `avg_word_length` of `english_scorer.py`. -/
def avg_word_length (t : PyStr) : ℚ :=
  let ws := pySplit t
  if ws = [] then 0
  else
    let avgLen : ℚ := ((ws.map (fun w => (w.length : ℚ))).sum) / ws.length
    max 0 (1 - |4.5 - avgLen| / 4.5)

/-- The function `cheap_score` of `english_scorer.py`: the composite
English-likeness score with the fixed WEIGHTS table and the short-text
boost, rounded to four decimal places. -/
def cheap_score (ext : Externals) (text : PyStr) : ℚ :=
  let t := clean_text text
  if t = [] then 0
  else
    let w := word_ratio ext t
    let f := freq_score ext t
    let b := bigram_score t
    let e := entropy_score ext t
    let l := lang_score ext t
    let lp := avg_word_length t
    let score := 0.35 * w + 0.20 * f + 0.15 * b + 0.10 * e +
      0.15 * l + 0.05 * lp
    let score :=
      if (pySplit t).length ≤ 3 ∧ (1 : ℚ)/2 < w then score + 0.15 else score
    round4 score

/-- The function `hybrid_score` of `english_scorer.py`, an alias for
`cheap_score`. -/
def hybrid_score (ext : Externals) (text : PyStr) : ℚ := cheap_score ext text

-- ---------------------------------------------------------------------
-- detect_cipher.py: the ensemble's own lightweight english_score
-- ---------------------------------------------------------------------

/-- The function `english_score` of `detect_cipher.py`: word-frequency
based scoring on the Zipf scale, counting only tokens longer than two
characters whose Zipf frequency exceeds 3. -/
def english_score (ext : Externals) (t : PyStr) : ℚ :=
  let ws := alphaTokens t
  if ws = [] then 0
  else
    let total := (ws.map (fun w =>
      let freq := ext.zipf (pyLower w)
      if 2 < w.length ∧ 3 < freq then freq else 0)).sum
    round2 ((total / ws.length) * 10)

-- ---------------------------------------------------------------------
-- Scorer contract lemmas (claim C7)
-- ---------------------------------------------------------------------

theorem rat_floor_eq (y : ℚ) : y.floor = ⌊y⌋ := by
  rw [Rat.floor_def, Rat.floor_def']

theorem pyRoundMul_nonneg (x m : ℚ) (hx : 0 ≤ x) (hm : 0 < m) :
    0 ≤ pyRoundMul x m := by
  have hy : 0 ≤ x * m := mul_nonneg hx hm.le
  have hn : (0 : Int) ≤ (x * m).floor := by
    rw [rat_floor_eq]
    exact Int.le_floor.mpr (by exact_mod_cast hy)
  unfold pyRoundMul
  dsimp only
  split_ifs <;>
    exact div_nonneg (by exact_mod_cast (by omega : (0 : Int) ≤ _)) hm.le

theorem pyRoundMul_int (x m : ℚ) : ∃ n : Int, pyRoundMul x m = (n : ℚ) / m := by
  unfold pyRoundMul
  dsimp only
  split_ifs <;> exact ⟨_, rfl⟩

theorem word_ratio_nonneg (ext : Externals) (t : PyStr) :
    0 ≤ word_ratio ext t := by
  unfold word_ratio
  dsimp only
  split_ifs
  · exact le_refl 0
  · positivity

theorem freq_score_nonneg (ext : Externals) (t : PyStr) :
    0 ≤ freq_score ext t := by
  unfold freq_score
  dsimp only
  split_ifs
  · exact le_refl 0
  · have hs : 0 ≤ ((alphaTokens t).map (fun w => ext.zipf (pyLower w))).sum :=
      List.sum_nonneg (by
        intro x hx
        obtain ⟨w, _, hw⟩ := List.mem_map.mp hx
        exact hw ▸ ext.zipf_nonneg (pyLower w))
    positivity

theorem bigram_score_nonneg (t : PyStr) : 0 ≤ bigram_score t := by
  unfold bigram_score
  dsimp only
  split_ifs
  · exact le_refl 0
  · positivity

theorem entropy_score_nonneg (ext : Externals) (t : PyStr) :
    0 ≤ entropy_score ext t := by
  unfold entropy_score
  split_ifs
  · exact le_refl 0
  · exact le_max_left 0 _

theorem lang_score_nonneg (ext : Externals) (t : PyStr) :
    0 ≤ lang_score ext t := by
  unfold lang_score
  dsimp only
  split_ifs
  · exact le_refl 0
  · exact ext.langProb_nonneg _

theorem avg_word_length_nonneg (t : PyStr) : 0 ≤ avg_word_length t := by
  unfold avg_word_length
  dsimp only
  split_ifs
  · exact le_refl 0
  · exact le_max_left 0 _

theorem cheap_score_nonneg (ext : Externals) (t : PyStr) :
    0 ≤ cheap_score ext t := by
  unfold cheap_score
  dsimp only
  split_ifs with h1 h2
  · exact le_refl 0
  all_goals
    apply pyRoundMul_nonneg _ _ _ (by norm_num)
  all_goals
    have hw := word_ratio_nonneg ext (clean_text t)
    have hf := freq_score_nonneg ext (clean_text t)
    have hb := bigram_score_nonneg (clean_text t)
    have he := entropy_score_nonneg ext (clean_text t)
    have hl := lang_score_nonneg ext (clean_text t)
    have hlp := avg_word_length_nonneg (clean_text t)
    linarith

theorem cheap_score_multiple (ext : Externals) (t : PyStr) :
    ∃ n : Int, cheap_score ext t = (n : ℚ) / 10000 := by
  unfold cheap_score
  dsimp only
  split_ifs
  · exact ⟨0, by norm_num⟩
  all_goals exact pyRoundMul_int _ _

theorem sanitize_no_alpha_space (t : PyStr)
    (h : ∀ c ∈ t, isAlphaCode c = false) :
    ∀ x ∈ t.map sanitizeChar, isSpaceCode x = true := by
  intro x hx
  obtain ⟨c, hc, hcx⟩ := List.mem_map.mp hx
  have hca := h c hc
  unfold sanitizeChar at hcx
  by_cases hs : isSpaceCode c = true
  · rw [← hcx]
    simp [hca, hs]
  · have hs2 : isSpaceCode c = false := by
      revert hs; cases isSpaceCode c <;> simp
    rw [← hcx]
    have hcond : (isAlphaCode c || isSpaceCode c) = false := by
      rw [hca, hs2]; rfl
    rw [hcond]
    simp only [Bool.false_eq_true, if_false]
    decide

theorem clean_text_of_no_alpha (t : PyStr)
    (h : ∀ c ∈ t, isAlphaCode c = false) : clean_text t = [] := by
  unfold clean_text
  have hall := sanitize_no_alpha_space t h
  cases ht : t.map sanitizeChar with
  | nil => simp [collapseWs, pyStrip]
  | cons c rest =>
    have hc : isSpaceCode c = true := hall c (ht ▸ List.mem_cons_self c rest)
    have hrest : rest.dropWhile (fun d => isSpaceCode d) = [] := by
      rw [List.dropWhile_eq_nil_iff]
      intro x hx
      exact hall x (ht ▸ List.mem_cons_of_mem c hx)
    simp only [collapseWs, hc, if_true, hrest]
    simp [collapseWs, pyStrip, isSpaceCode]

theorem cheap_score_no_alpha (ext : Externals) (t : PyStr)
    (h : ∀ c ∈ t, isAlphaCode c = false) : cheap_score ext t = 0 := by
  unfold cheap_score
  rw [clean_text_of_no_alpha t h]
  simp

/-- C7: for every Externals snapshot and every text, `cheap_score` is
nonnegative, is an integer multiple of one ten-thousandth (it is
returned rounded to four decimal places), and is exactly zero when the
text has no alphabetic characters. -/
theorem claim_C7_scorer_contract (ext : Externals) (t : PyStr) :
    0 ≤ cheap_score ext t ∧
    (∃ n : Int, cheap_score ext t = (n : ℚ) / 10000) ∧
    ((∀ c ∈ t, isAlphaCode c = false) → cheap_score ext t = 0) :=
  ⟨cheap_score_nonneg ext t, cheap_score_multiple ext t,
    cheap_score_no_alpha ext t⟩

/-- A trivial Externals snapshot used for concrete evaluations: no word
is known, every Zipf frequency and language probability is zero, the
logarithm and fluency oracles are zero and the exponential is one. -/
def extZero : Externals where
  isWord := fun _ => false
  zipf := fun _ => 0
  zipf_nonneg := fun _ => le_refl 0
  langProb := fun _ => 0
  langProb_nonneg := fun _ => le_refl 0
  langProb_le_one := fun _ => by norm_num
  log2 := fun _ => 0
  exp := fun _ => 1
  tscore := fun _ => 0
  words := []

/-- Witness for C7 at a concrete text with no letters. -/
theorem claim_C7_scorer_contract_witness :
    0 ≤ cheap_score extZero (S "123 !?") ∧
    cheap_score extZero (S "123 !?") = 0 :=
  ⟨(claim_C7_scorer_contract extZero (S "123 !?")).1,
   (claim_C7_scorer_contract extZero (S "123 !?")).2.2 (by decide)⟩

-- ---------------------------------------------------------------------
-- affine.py
-- ---------------------------------------------------------------------

/-- The function `gcd` of `affine.py` (Euclid's subtraction-free loop,
used on nonnegative arguments). -/
def pyGcd (a b : Nat) : Nat :=
  if b = 0 then a else pyGcd b (a % b)
termination_by b
decreasing_by
  exact Nat.mod_lt _ (Nat.pos_of_ne_zero (by assumption))

theorem pyGcd_eq_gcd : ∀ (b a : Nat), pyGcd a b = Nat.gcd a b := by
  intro b
  induction b using Nat.strong_induction_on with
  | _ b ih =>
    intro a
    unfold pyGcd
    split_ifs with h
    · rw [h, Nat.gcd_zero_right]
    · rw [ih (a % b) (Nat.mod_lt _ (Nat.pos_of_ne_zero h)) b]
      rw [Nat.gcd_comm b (a % b), ← Nat.gcd_rec, Nat.gcd_comm]

/-- The function `mod_inv` of `affine.py`: reduce `a` modulo `m`, then
search `1..m-1` for the first multiplicative inverse; `none` models
Python's `None`. -/
def mod_inv (a m : Int) : Option Int :=
  let a2 := a % m
  (((List.range m.toNat).drop 1).map (fun x => (x : Int))).find?
    (fun x => (a2 * x) % m == 1)

/-- The function `affine_decrypt` of `affine.py` with the default
26-letter alphabet: when the multiplier has no modular inverse the
empty string is returned; otherwise every letter is mapped through
`a_inv * (x - b) mod 26` with its case preserved, and other characters
pass through. -/
def affine_decrypt (ciphertext : PyStr) (a b : Int) : PyStr :=
  match mod_inv a 26 with
  | none => []
  | some aInv =>
    ciphertext.map (fun ch =>
      if isAlphaCode ch then
        let x := toUpperCode ch - 65
        let dec := 65 + (aInv * (x - b)) % 26
        if isLowerCode ch then dec + 32 else dec
      else ch)

/-- Candidate dictionaries produced inside `detect_affine`; `ai` and
`final_score` are the keys later attached by the transformer
refinement step. -/
structure AffCand where
  a : Int
  b : Int
  text : PyStr
  score : ℚ
  ai : ℚ := 0
  final_score : Option ℚ := none
deriving DecidableEq

/-- The cleaned result dictionaries returned by `detect_affine`. -/
structure AffResult where
  a : Int
  b : Int
  score : ℚ
  text : PyStr
deriving DecidableEq

/-- Python's stable sort with `reverse=True` on a rational key. -/
def sortByDesc {α : Type} (key : α → ℚ) (l : List α) : List α :=
  l.mergeSort (fun x y => decide (key y ≤ key x))

/-- The function `refine_with_transformer` of `english_scorer.py`,
specialized to affine candidates: sort by score, attach the transformer
fluency bonus to the top `top_k`, give the rest their unrefined score as
final score, and sort by final score. -/
def refine_with_transformer_aff (ext : Externals) (candidates : List AffCand)
    (top_k : Nat) : List AffCand :=
  if candidates = [] then []
  else
    let sorted := sortByDesc (fun c => c.score) candidates
    let top := (sorted.take top_k).map (fun c =>
      let ai := ext.tscore c.text
      { c with ai := ai, final_score := some (round4 (c.score + 0.6 * ai)) })
    let rest := (sorted.drop top_k).map (fun c =>
      { c with ai := 0, final_score := some c.score })
    sortByDesc (fun c => c.final_score.getD c.score) (top ++ rest)

/-- The brute-force enumeration inside `detect_affine`: all pairs with
`gcd(a, 26) == 1`, keeping candidates whose decryption is non-blank and
whose hybrid score clears the noise floor. -/
def detect_affine_results (ext : Externals) (ciphertext : PyStr) :
    List AffCand :=
  (((List.range 26).drop 1).filter (fun a => pyGcd a 26 == 1)).flatMap
    (fun a => (List.range 26).filterMap (fun (b : Nat) =>
      let decrypted := affine_decrypt ciphertext (a : Int) (b : Int)
      if pyStrip decrypted = [] then none
      else
        let score := hybrid_score ext decrypted
        if score ≤ 0.05 then none
        else some { a := (a : Int), b := (b : Int), text := decrypted,
                    score := round4 score }))

/-- The function `detect_affine` of `affine.py`. -/
def detect_affine (ext : Externals) (ciphertext : PyStr) (top_n : Nat := 5)
    (refine : Bool := true) : List AffResult :=
  let results := detect_affine_results ext ciphertext
  if results = [] then []
  else
    let sorted := sortByDesc (fun c => c.score) results
    let shortlist := sorted.take 80
    let shortlist :=
      if refine then refine_with_transformer_aff ext shortlist 10
      else shortlist
    let finalSorted := sortByDesc (fun c => c.final_score.getD c.score)
      shortlist
    (finalSorted.take top_n).map (fun r =>
      { a := r.a, b := r.b, score := round4 (r.final_score.getD r.score),
        text := r.text })

-- ---------------------------------------------------------------------
-- mod_inv and affine_decrypt facts (claim C10)
-- ---------------------------------------------------------------------

theorem gcd_emod_26_iff (a : Int) :
    Int.gcd (a % 26) 26 = 1 ↔ Int.gcd a 26 = 1 := by
  rw [Int.gcd_eq_one_iff_coprime, Int.gcd_eq_one_iff_coprime]
  constructor
  · intro h
    have h2 := IsCoprime.add_mul_left_left h (a / 26)
    rwa [show a % 26 + 26 * (a / 26) = a by omega] at h2
  · intro h
    have h2 := IsCoprime.add_mul_left_left h (-(a / 26))
    rwa [show a + 26 * -(a / 26) = a % 26 by omega] at h2

theorem mod_inv_emod (a : Int) : mod_inv a 26 = mod_inv (a % 26) 26 := by
  unfold mod_inv
  rw [Int.emod_emod_of_dvd a (dvd_refl 26)]

/-- Finite check over the 26 residues: a residue coprime to 26 has a
modular inverse found by the search, and a residue not coprime to 26
does not. -/
theorem mod_inv_residue :
    ∀ r : Nat, r < 26 →
      (Int.gcd (r : Int) 26 = 1 → (mod_inv (r : Int) 26).isSome = true) ∧
      (Int.gcd (r : Int) 26 ≠ 1 → mod_inv (r : Int) 26 = none) := by
  decide

theorem mod_inv_some_of_coprime (a : Int) (h : Int.gcd a 26 = 1) :
    ∃ x, mod_inv a 26 = some x := by
  have h0 : 0 ≤ a % 26 := Int.emod_nonneg a (by norm_num)
  have h1 : a % 26 < 26 := Int.emod_lt_of_pos a (by norm_num)
  have hr : ((a % 26).toNat : Int) = a % 26 := Int.toNat_of_nonneg h0
  have hrlt : (a % 26).toNat < 26 := by omega
  have hg : Int.gcd (((a % 26).toNat : Nat) : Int) 26 = 1 := by
    rw [hr]
    exact (gcd_emod_26_iff a).mpr h
  have := (mod_inv_residue (a % 26).toNat hrlt).1 hg
  rw [hr] at this
  rw [mod_inv_emod]
  exact Option.isSome_iff_exists.mp this

theorem mod_inv_none_of_not_coprime (a : Int) (h : Int.gcd a 26 ≠ 1) :
    mod_inv a 26 = none := by
  have h0 : 0 ≤ a % 26 := Int.emod_nonneg a (by norm_num)
  have h1 : a % 26 < 26 := Int.emod_lt_of_pos a (by norm_num)
  have hr : ((a % 26).toNat : Int) = a % 26 := Int.toNat_of_nonneg h0
  have hrlt : (a % 26).toNat < 26 := by omega
  have hg : Int.gcd (((a % 26).toNat : Nat) : Int) 26 ≠ 1 := by
    rw [hr]
    intro hcon
    exact h ((gcd_emod_26_iff a).mp hcon)
  have := (mod_inv_residue (a % 26).toNat hrlt).2 hg
  rw [hr] at this
  rw [mod_inv_emod]
  exact this

/-- C10: for a multiplier not coprime with 26, `affine_decrypt` returns
the empty string rather than raising; for a coprime multiplier the
modular-inverse lookup succeeds and the whole input is decrypted
character by character (the output has the input's length). -/
theorem claim_C10_affine_inverse (ct : PyStr) (a b : Int) :
    (Int.gcd a 26 ≠ 1 → affine_decrypt ct a b = []) ∧
    (Int.gcd a 26 = 1 →
      (∃ x, mod_inv a 26 = some x) ∧
      (affine_decrypt ct a b).length = ct.length) := by
  constructor
  · intro h
    unfold affine_decrypt
    rw [mod_inv_none_of_not_coprime a h]
  · intro h
    obtain ⟨x, hx⟩ := mod_inv_some_of_coprime a h
    refine ⟨⟨x, hx⟩, ?_⟩
    unfold affine_decrypt
    rw [hx]
    simp

/-- Witness for C10 at the non-invertible multiplier 2 and the
invertible multiplier 3. -/
theorem claim_C10_affine_inverse_witness :
    affine_decrypt (S "AB c!") 2 5 = [] ∧
    (∃ x, mod_inv 3 26 = some x) ∧
    (affine_decrypt (S "AB c!") 3 5).length = (S "AB c!").length :=
  ⟨(claim_C10_affine_inverse (S "AB c!") 2 5).1 (by decide),
   (claim_C10_affine_inverse (S "AB c!") 3 5).2 (by decide)⟩

-- ---------------------------------------------------------------------
-- Claim C4: detect_affine only proposes valid key pairs
-- ---------------------------------------------------------------------

theorem mem_sortByDesc {α : Type} (key : α → ℚ) (l : List α) (x : α) :
    x ∈ sortByDesc key l ↔ x ∈ l :=
  (List.mergeSort_perm l _).mem_iff

theorem refine_aff_keys (ext : Externals) (cands : List AffCand) (k : Nat)
    (c : AffCand) (hc : c ∈ refine_with_transformer_aff ext cands k) :
    ∃ c2 ∈ cands, c.a = c2.a ∧ c.b = c2.b := by
  unfold refine_with_transformer_aff at hc
  split_ifs at hc with h0
  · simp at hc
  · rw [mem_sortByDesc] at hc
    rcases List.mem_append.mp hc with h | h
    · obtain ⟨c2, hc2, hcc⟩ := List.mem_map.mp h
      refine ⟨c2, ?_, ?_, ?_⟩
      · exact (mem_sortByDesc _ cands c2).mp (List.mem_of_mem_take hc2)
      · rw [← hcc]
      · rw [← hcc]
    · obtain ⟨c2, hc2, hcc⟩ := List.mem_map.mp h
      refine ⟨c2, ?_, ?_, ?_⟩
      · exact (mem_sortByDesc _ cands c2).mp (List.mem_of_mem_drop hc2)
      · rw [← hcc]
      · rw [← hcc]

theorem detect_affine_results_coprime (ext : Externals) (ct : PyStr)
    (c : AffCand) (hc : c ∈ detect_affine_results ext ct) :
    Int.gcd c.a 26 = 1 := by
  unfold detect_affine_results at hc
  obtain ⟨a, ha, hc2⟩ := List.mem_flatMap.mp hc
  have hga : (pyGcd a 26 == 1) = true := (List.mem_filter.mp ha).2
  have hg : Nat.gcd a 26 = 1 := by
    simp only [beq_iff_eq] at hga
    rw [← pyGcd_eq_gcd 26 a]
    exact hga
  obtain ⟨b, _, hsome⟩ := List.mem_filterMap.mp hc2
  have hca : c.a = (a : Int) := by
    dsimp only at hsome
    split_ifs at hsome
    all_goals cases hsome
    rfl
  rw [hca]
  simpa [Int.gcd] using hg

theorem detect_affine_mem_coprime (ext : Externals) (ct : PyStr)
    (top_n : Nat) (refine : Bool) (r : AffResult)
    (hr : r ∈ detect_affine ext ct top_n refine) : Int.gcd r.a 26 = 1 := by
  unfold detect_affine at hr
  dsimp only at hr
  split_ifs at hr with h0 hrf
  · simp at hr
  · obtain ⟨c, hc, hcr⟩ := List.mem_map.mp hr
    have hca : r.a = c.a := by rw [← hcr]
    rw [hca]
    have hc2 := (mem_sortByDesc _ _ c).mp (List.mem_of_mem_take hc)
    obtain ⟨c3, hc3, hc3a, _⟩ := refine_aff_keys ext _ 10 c hc2
    rw [hc3a]
    exact detect_affine_results_coprime ext ct c3
      ((mem_sortByDesc _ _ c3).mp (List.mem_of_mem_take hc3))
  · obtain ⟨c, hc, hcr⟩ := List.mem_map.mp hr
    have hca : r.a = c.a := by rw [← hcr]
    rw [hca]
    have hc2 := (mem_sortByDesc _ _ c).mp (List.mem_of_mem_take hc)
    exact detect_affine_results_coprime ext ct c
      ((mem_sortByDesc _ _ c).mp (List.mem_of_mem_take hc2))

/-- C4: every candidate returned by `detect_affine` carries a key pair
whose multiplier is coprime with 26; pairs with a non-coprime
multiplier are never decrypted into the result list. -/
theorem claim_C4_affine_valid_keys (ext : Externals) (ct : PyStr)
    (top_n : Nat) (refine : Bool) :
    (detect_affine ext ct top_n refine).all
      (fun r => Int.gcd r.a 26 == 1) = true := by
  rw [List.all_eq_true]
  intro r hr
  exact beq_iff_eq.mpr (detect_affine_mem_coprime ext ct top_n refine r hr)

-- ---------------------------------------------------------------------
-- vigenere.py: chi-squared column-shift solver
-- ---------------------------------------------------------------------

/-- The function `clean_letters` of `vigenere.py`: keep only alphabetic
characters, upper-cased. -/
def clean_letters (t : PyStr) : PyStr :=
  (t.filter (fun c => isAlphaCode c)).map toUpperCode

/-- The EN_FREQ table of `vigenere.py`: canonical English letter
frequencies keyed by code point, in insertion order A..Z. -/
def EN_FREQ : List (Int × ℚ) :=
  [(65, 0.08167), (66, 0.01492), (67, 0.02782), (68, 0.04253),
   (69, 0.12702), (70, 0.02228), (71, 0.02015), (72, 0.06094),
   (73, 0.06966), (74, 0.00153), (75, 0.00772), (76, 0.04025),
   (77, 0.02406), (78, 0.06749), (79, 0.07507), (80, 0.01929),
   (81, 0.00095), (82, 0.05987), (83, 0.06327), (84, 0.09056),
   (85, 0.02758), (86, 0.00978), (87, 0.02360), (88, 0.00150),
   (89, 0.01974), (90, 0.00074)]

/-- The function `chi_squared_for_shift` of `vigenere.py`; `none`
models the `float('inf')` returned for an empty column. -/
def chi_squared_for_shift (column : PyStr) (shift : Int) : Option ℚ :=
  if column = [] then none
  else
    let shifted := column.map (fun c => (c - 65 - shift) % 26 + 65)
    let N : ℚ := column.length
    some ((EN_FREQ.map (fun pr =>
      let expected := pr.2 * N
      ((shifted.count pr.1 : ℚ) - expected) ^ 2 / (expected + 1e-9))).sum)

/-- Strict comparison of chi-squared values, `none` standing for the
infinite value: mirrors how Python's `min` compares the float keys. -/
def infLt (x y : Option ℚ) : Bool :=
  match x, y with
  | none, _ => false
  | some _, none => true
  | some a, some b => decide (a < b)

/-- Python's `min(iterable, key=...)` fold: the running best is
replaced only when a strictly smaller key appears, so the first
minimizer wins. -/
def pyMinBy (key : Nat → Option ℚ) : List Nat → Nat → Nat
  | [], best => best
  | x :: rest, best =>
    pyMinBy key rest (if infLt (key x) (key best) then x else best)

/-- Python's `text[i::m]` for the tail starting at `i`: every `step`-th
element. -/
def everyNth (step : Nat) : List Int → List Int
  | [] => []
  | c :: rest => c :: everyNth step (rest.drop (step - 1))
termination_by l => l.length
decreasing_by
  exact Nat.lt_succ_of_le (by simpa using List.length_drop_le _ _)

/-- Column `i` of the `m`-way interleaved partition (`text[i::m]`). -/
def column (t : PyStr) (m i : Nat) : PyStr := everyNth m (t.drop i)

/-- The function `best_shifts_for_length` of `vigenere.py`: for each
column, the first shift among 0..25 minimizing the chi-squared fit. -/
def best_shifts_for_length (cipher : PyStr) (m : Nat) : List Nat :=
  let text := clean_letters cipher
  (List.range m).map (fun i =>
    let col := column text m i
    pyMinBy (fun s => chi_squared_for_shift col (s : Int))
      ((List.range 26).drop 1) 0)

-- ---------------------------------------------------------------------
-- Minimality of the chosen column shifts (claim C6)
-- ---------------------------------------------------------------------

/-- Interpretation of an optional chi-squared value in the extended
rationals. -/
def toW : Option ℚ → WithTop ℚ
  | none => ⊤
  | some q => (q : WithTop ℚ)

theorem infLt_iff (a b : Option ℚ) : infLt a b = true ↔ toW a < toW b := by
  cases a <;> cases b <;> simp [infLt, toW]

theorem infLt_false_iff (a b : Option ℚ) :
    infLt a b = false ↔ toW b ≤ toW a := by
  rw [← not_lt, ← infLt_iff]
  cases infLt a b <;> simp

theorem pyMinBy_spec (key : Nat → Option ℚ) :
    ∀ (l : List Nat) (best : Nat),
      toW (key (pyMinBy key l best)) ≤ toW (key best) ∧
      ∀ x ∈ l, toW (key (pyMinBy key l best)) ≤ toW (key x) := by
  intro l
  induction l with
  | nil => exact fun best => ⟨le_refl _, fun x hx => absurd hx (by simp)⟩
  | cons x rest ih =>
    intro best
    by_cases h : infLt (key x) (key best) = true
    · have hlt : toW (key x) < toW (key best) := (infLt_iff _ _).mp h
      have hres := ih x
      simp only [pyMinBy, h, if_true]
      refine ⟨le_trans hres.1 hlt.le, ?_⟩
      intro y hy
      rcases List.mem_cons.mp hy with rfl | hy2
      · exact hres.1
      · exact hres.2 y hy2
    · have hle : toW (key best) ≤ toW (key x) :=
        (infLt_false_iff _ _).mp (by revert h; cases infLt (key x) (key best) <;> simp)
      have hres := ih best
      simp only [pyMinBy, h, if_false]
      refine ⟨hres.1, ?_⟩
      intro y hy
      rcases List.mem_cons.mp hy with rfl | hy2
      · exact le_trans hres.1 hle
      · exact hres.2 y hy2

/-- C6: `best_shifts_for_length` returns one shift per column, and for
every column `i` and every shift `s` in 0..25 the chosen shift's
chi-squared fit is no worse than that of `s` (no shift beats the chosen
one, with the empty-column infinity ordered above every value). -/
theorem claim_C6_chi_squared_minimal :
    (∀ (ct : PyStr) (m : Nat), (best_shifts_for_length ct m).length = m) ∧
    (∀ (ct : PyStr) (m i s : Nat), i < m → s < 26 →
      infLt
        (chi_squared_for_shift (column (clean_letters ct) m i) (s : Int))
        (chi_squared_for_shift (column (clean_letters ct) m i)
          (((best_shifts_for_length ct m).getD i 0 : Nat) : Int)) = false) := by
  constructor
  · intro ct m
    unfold best_shifts_for_length
    simp
  · intro ct m i s hi hs
    set col := column (clean_letters ct) m i with hcol
    set key := fun s : Nat => chi_squared_for_shift col (s : Int) with hkey
    have hchosen : (best_shifts_for_length ct m).getD i 0 =
        pyMinBy key ((List.range 26).drop 1) 0 := by
      unfold best_shifts_for_length
      rw [List.getD_eq_getElem _ _ (by simpa using hi)]
      simp [hkey, hcol]
    rw [hchosen, infLt_false_iff]
    have hspec := pyMinBy_spec key ((List.range 26).drop 1) 0
    rcases Nat.eq_zero_or_pos s with rfl | hpos
    · exact hspec.1
    · refine hspec.2 s ?_
      rw [List.range_succ_eq_map, List.drop_succ_cons, List.drop_zero]
      exact List.mem_map.mpr ⟨s - 1, List.mem_range.mpr (by omega), by omega⟩

/-- Witness for C6 at a concrete ciphertext, key length 2, column 0 and
shift 5. -/
theorem claim_C6_chi_squared_minimal_witness :
    infLt
      (chi_squared_for_shift (column (clean_letters (S "ATTACK AT DAWN")) 2 0)
        (5 : Int))
      (chi_squared_for_shift (column (clean_letters (S "ATTACK AT DAWN")) 2 0)
        (((best_shifts_for_length (S "ATTACK AT DAWN") 2).getD 0 0 : Nat) :
          Int)) = false :=
  claim_C6_chi_squared_minimal.2 (S "ATTACK AT DAWN") 2 0 5 (by decide)
    (by decide)

-- ---------------------------------------------------------------------
-- detect_cipher.py: safe_detect and auto_detect
-- ---------------------------------------------------------------------

/-- A raw candidate dictionary as returned by an individual detector;
`auto_detect` reads `text` and looks up the key-describing fields with
a question-mark default. -/
structure RawCand where
  shift : Option Int := none
  key : Option PyStr := none
  a : Option Int := none
  b : Option Int := none
  mapping_variant : Option Int := none
  text : PyStr
  score : ℚ := 0
deriving DecidableEq

/-- The four detector functions imported by `detect_cipher.py`.  Each
is a Python callable that either returns a candidate list or raises,
modelled as an `Except` value. -/
structure DetectorSet where
  caesar : PyStr → Except PyStr (List RawCand)
  atbash : PyStr → Except PyStr (List RawCand)
  vigenere : PyStr → Except PyStr (List RawCand)
  affine : PyStr → Except PyStr (List RawCand)

/-- The function `safe_detect` of `detect_cipher.py`: an exception in
the wrapped detector is caught and yields the empty candidate list. -/
def safe_detect (f : PyStr → Except PyStr (List RawCand)) (ct : PyStr) :
    List RawCand :=
  match f ct with
  | Except.ok res => res
  | Except.error _ => []

/-- Decimal digits of an integer as code points (for the f-string
key descriptions). -/
def intToPyStr (i : Int) : PyStr :=
  if i < 0 then
    45 :: (Nat.toDigits 10 i.natAbs).map (fun c => (c.toNat : Int))
  else (Nat.toDigits 10 i.toNat).map (fun c => (c.toNat : Int))

/-- Rendering of `r.get(field, '?')` for an integer field. -/
def optIntStr (o : Option Int) : PyStr :=
  match o with
  | some i => intToPyStr i
  | none => [63]

/-- Rendering of `r.get('key', '?')`. -/
def optKeyStr (o : Option PyStr) : PyStr :=
  match o with
  | some k => k
  | none => [63]

/-- The cipher label built by `auto_detect`'s conditional f-string. -/
def candLabel (name : PyStr) (r : RawCand) : PyStr :=
  if name = S "Caesar" then
    name ++ S " (Shift=" ++ optIntStr r.shift ++ S ")"
  else if name = S "Vigenere" then
    name ++ S " (Key=" ++ optKeyStr r.key ++ S ")"
  else if name = S "Affine" then
    name ++ S " (a=" ++ optIntStr r.a ++ S ", b=" ++ optIntStr r.b ++ S ")"
  else if name = S "Monoalphabetic" then
    name ++ S " (Variant " ++ optIntStr r.mapping_variant ++ S ")"
  else name

/-- A normalized entry of the ensemble's combined result list. -/
structure Combined where
  cipher : PyStr
  text : PyStr
  score : ℚ
deriving DecidableEq

/-- The return dictionary of `auto_detect`. -/
structure AutoResult where
  best_cipher : PyStr
  best_text : PyStr
  top_results : List Combined
deriving DecidableEq

/-- The `detectors` list inside `auto_detect`.  The source comments the
Monoalphabetic (substitution) entry out, so only Caesar, Atbash,
Vigenere and Affine are run. -/
def detectorList (ds : DetectorSet) :
    List (PyStr × (PyStr → Except PyStr (List RawCand))) :=
  [(S "Caesar", ds.caesar),
   (S "Atbash", ds.atbash),
   (S "Vigenere", ds.vigenere),
   (S "Affine", ds.affine)]

/-- The combined candidate list accumulated by `auto_detect`'s loop:
each detector runs under `safe_detect`, Caesar keeps only its first
five results, and every entry is re-scored with `english_score`. -/
def combinedResults (ext : Externals) (ds : DetectorSet) (ct : PyStr) :
    List Combined :=
  (detectorList ds).flatMap (fun nf =>
    let results := safe_detect nf.2 ct
    let results := if nf.1 = S "Caesar" then results.take 5 else results
    results.map (fun r =>
      { cipher := candLabel nf.1 r, text := r.text,
        score := english_score ext r.text }))

/-- The function `auto_detect` of `detect_cipher.py`. -/
def auto_detect (ext : Externals) (ds : DetectorSet) (ct : PyStr)
    (top_n : Nat := 3) : AutoResult :=
  let combined := combinedResults ext ds ct
  if combined = [] then
    { best_cipher := S "Unknown", best_text := ct, top_results := [] }
  else
    let sorted := sortByDesc (fun c => c.score) combined
    let top := sorted.take top_n
    let best := top.headD { cipher := S "Unknown", text := ct, score := 0 }
    { best_cipher := best.cipher, best_text := best.text, top_results := top }

/-- A detector set in which every model returns no candidates. -/
def dsEmpty : DetectorSet where
  caesar := fun _ => Except.ok []
  atbash := fun _ => Except.ok []
  vigenere := fun _ => Except.ok []
  affine := fun _ => Except.ok []

-- ---------------------------------------------------------------------
-- Claim C1: which models run, and per-model error isolation
-- ---------------------------------------------------------------------

/-- C1 counterexample: the ensemble does not run a Substitution
(Monoalphabetic) search at all — the detector list holds exactly
Caesar, Atbash, Vigenere and Affine; the Monoalphabetic entry is
commented out in the source. -/
theorem claim_C1_counterexample :
    (detectorList dsEmpty).map Prod.fst =
      [S "Caesar", S "Atbash", S "Vigenere", S "Affine"] ∧
    S "Monoalphabetic" ∉ (detectorList dsEmpty).map Prod.fst ∧
    S "Substitution" ∉ (detectorList dsEmpty).map Prod.fst := by
  decide

/-- C1 amended: `auto_detect` runs exactly the Caesar, Atbash, Vigenère
and Affine searches (substitution is excluded), and failures are
isolated per model: a model whose search raises contributes exactly the
same combined results as one returning zero candidates, leaving every
other model's contribution untouched. -/
theorem claim_C1_ensemble_isolation :
    (∀ ds : DetectorSet, (detectorList ds).map Prod.fst =
      [S "Caesar", S "Atbash", S "Vigenere", S "Affine"]) ∧
    (∀ (ext : Externals) (ds : DetectorSet) (ct e : PyStr),
      combinedResults ext { ds with caesar := fun _ => Except.error e } ct =
        combinedResults ext { ds with caesar := fun _ => Except.ok [] } ct ∧
      combinedResults ext { ds with atbash := fun _ => Except.error e } ct =
        combinedResults ext { ds with atbash := fun _ => Except.ok [] } ct ∧
      combinedResults ext { ds with vigenere := fun _ => Except.error e } ct =
        combinedResults ext { ds with vigenere := fun _ => Except.ok [] } ct ∧
      combinedResults ext { ds with affine := fun _ => Except.error e } ct =
        combinedResults ext { ds with affine := fun _ => Except.ok [] } ct) := by
  refine ⟨fun ds => rfl, fun ext ds ct e => ?_⟩
  refine ⟨?_, ?_, ?_, ?_⟩ <;> rfl

-- ---------------------------------------------------------------------
-- Claim C9: the all-empty fallback
-- ---------------------------------------------------------------------

/-- C9 counterexample: when every model yields zero candidates the
fallback's cipher name is Unknown and its text is the original
ciphertext, but the result carries no zero score — its candidate list
is empty and no score field exists on the fallback. -/
theorem claim_C9_counterexample :
    (auto_detect extZero dsEmpty (S "xyz") 3).best_cipher = S "Unknown" ∧
    (auto_detect extZero dsEmpty (S "xyz") 3).best_text = S "xyz" ∧
    ¬ ∃ r ∈ (auto_detect extZero dsEmpty (S "xyz") 3).top_results,
      r.score = 0 := by
  decide

/-- C9 amended: if every model's safe search yields zero candidates,
`auto_detect` returns the fallback `{best_cipher := Unknown, best_text
:= original ciphertext, top_results := []}`, with no score attached. -/
theorem claim_C9_unknown_fallback (ext : Externals) (ds : DetectorSet)
    (ct : PyStr) (top_n : Nat)
    (h : ∀ nf ∈ detectorList ds, safe_detect nf.2 ct = []) :
    auto_detect ext ds ct top_n =
      { best_cipher := S "Unknown", best_text := ct, top_results := [] } := by
  have h1 := h (S "Caesar", ds.caesar) (by simp [detectorList])
  have h2 := h (S "Atbash", ds.atbash) (by simp [detectorList])
  have h3 := h (S "Vigenere", ds.vigenere) (by simp [detectorList])
  have h4 := h (S "Affine", ds.affine) (by simp [detectorList])
  have hc : combinedResults ext ds ct = [] := by
    unfold combinedResults detectorList
    simp [h1, h2, h3, h4]
  unfold auto_detect
  rw [hc]
  rfl

/-- Witness for C9: all four detectors return empty candidate lists. -/
theorem claim_C9_unknown_fallback_witness :
    auto_detect extZero dsEmpty (S "abc") 3 =
      { best_cipher := S "Unknown", best_text := S "abc",
        top_results := [] } :=
  claim_C9_unknown_fallback extZero dsEmpty (S "abc") 3 (by decide)

-- ---------------------------------------------------------------------
-- Claim C5: the score attached to combined candidates
-- ---------------------------------------------------------------------

/-- A detector set contributing a single Atbash candidate with text
aaaa. -/
def dsAaaa : DetectorSet where
  caesar := fun _ => Except.ok []
  atbash := fun _ => Except.ok [{ text := S "aaaa" }]
  vigenere := fun _ => Except.ok []
  affine := fun _ => Except.ok []

/-- C5 amended: every candidate in the ensemble's combined ranking
carries the score `english_score` (the Zipf-frequency scorer local to
`detect_cipher.py`) of its text — not the shared hybrid Scorer used
inside the cipher models. -/
theorem claim_C5_ensemble_rescoring (ext : Externals) (ds : DetectorSet)
    (ct : PyStr) (top_n : Nat) :
    ((auto_detect ext ds ct top_n).top_results.all
      (fun r => r.score == english_score ext r.text)) = true := by
  rw [List.all_eq_true]
  intro r hr
  have hcomb : ∀ c ∈ combinedResults ext ds ct,
      c.score = english_score ext c.text := by
    intro c hc
    unfold combinedResults at hc
    obtain ⟨nf, _, hc2⟩ := List.mem_flatMap.mp hc
    dsimp only at hc2
    rcases List.mem_map.mp (by
      rcases (by simpa using hc2 :
        c ∈ (if nf.1 = S "Caesar"
          then (safe_detect nf.2 ct).take 5
          else safe_detect nf.2 ct).map _) with h
      exact h) with ⟨raw, _, hraw⟩
    rw [← hraw]
  unfold auto_detect at hr
  dsimp only at hr
  split_ifs at hr with h0
  · simp at hr
  · have hmem : r ∈ combinedResults ext ds ct :=
      (mem_sortByDesc _ _ r).mp (List.mem_of_mem_take hr)
    exact beq_iff_eq.mpr (hcomb r hmem)

set_option maxRecDepth 100000 in
unseal Rat.add Rat.sub Rat.mul Rat.inv Rat.ofScientific collapseWs pySplit
  alphaTokens List.merge List.mergeSort in
/-- C5 counterexample: the score attached by the ensemble is not the
shared hybrid Scorer's score.  With the trivial Externals snapshot, the
single combined candidate (text aaaa) is given `english_score` zero,
while `cheap_score` (the Scorer the models use, alias `hybrid_score`)
gives its text a positive value. -/
theorem claim_C5_counterexample :
    ((auto_detect extZero dsAaaa (S "zzzz") 3).top_results.headD
        ⟨[], [], 0⟩).score ≠
      cheap_score extZero
        (((auto_detect extZero dsAaaa (S "zzzz") 3).top_results.headD
          ⟨[], [], 0⟩).text) := by
  decide

-- ---------------------------------------------------------------------
-- substitution.py: seeding, annealing and detect_substitution
-- ---------------------------------------------------------------------

/-- The ALPHABET constant of `substitution.py` (code points A..Z). -/
def ALPHABET : PyStr := (List.range 26).map (fun i => (65 + (i : Int)))

/-- Loop of `cipher_word_pattern`, carrying the first-occurrence index
assignment. -/
def cwpGo : PyStr → List (Int × Nat) → Nat → List Nat
  | [], _, _ => []
  | c :: rest, mp, next =>
    match mp.lookup c with
    | some i => i :: cwpGo rest mp next
    | none => next :: cwpGo rest ((c, next) :: mp) (next + 1)

/-- The function `cipher_word_pattern` of `substitution.py`. -/
def cipher_word_pattern (word : PyStr) : List Nat := cwpGo word [] 0

/-- Lookup in PATTERN_DICT: the dictionary words (from the external
word list, of length 2..12) sharing the given length and repetition
pattern, in word-list order. -/
def pattern_candidates (ws : List PyStr) (L : Nat) (pat : List Nat) :
    List PyStr :=
  ws.filter (fun w => 2 ≤ w.length && w.length ≤ 12 &&
    w.length == L && cipher_word_pattern w == pat)

/-- Maximal runs of upper-case letters (`re.findall(r"[A-Z]{2,}", ...)`
before the length-two filter). -/
def upperTokens : PyStr → List PyStr
  | [] => []
  | c :: rest =>
    if isUpperCode c then
      (c :: rest.takeWhile (fun d => isUpperCode d)) ::
        upperTokens (rest.dropWhile (fun d => isUpperCode d))
    else upperTokens rest
termination_by l => l.length
decreasing_by
  · exact Nat.lt_succ_of_le (List.dropWhile_suffix _).length_le
  · exact Nat.lt_succ_self _

/-- Conflict-checked mapping induced by aligning a cipher word with a
candidate plain word. -/
def mfwGo : List (Int × Int) → List (Int × Int) → Option (List (Int × Int))
  | m, [] => some m
  | m, (cch, pch) :: rest =>
    match m.lookup cch with
    | some p => if p = pch then mfwGo m rest else none
    | none => mfwGo (m ++ [(cch, pch)]) rest

/-- The per-word mapping construction inside
`seed_mappings_from_patterns`; `none` models the discarded conflicting
seed. -/
def mappingFromWords (cw cand : PyStr) : Option (List (Int × Int)) :=
  mfwGo [] (cw.zip cand)

/-- The function `seed_mappings_from_patterns` of `substitution.py`.
The Python source iterates `sorted(set(words_list), ...)`; the
unspecified set order is modelled as first-occurrence order. -/
def seed_mappings_from_patterns (ws : List PyStr) (ciphertext : PyStr)
    (max_words candidates_per_word : Nat) : List (List (Int × Int)) :=
  let words_list := (upperTokens (pyUpper ciphertext)).filter
    (fun w => 2 ≤ w.length)
  let words_sorted := words_list.dedup.mergeSort (fun w1 w2 =>
    decide (w2.length < w1.length) ||
    (w2.length == w1.length &&
      decide (words_list.count w2 ≤ words_list.count w1)))
  (words_sorted.take max_words).flatMap (fun cw =>
    ((pattern_candidates ws cw.length (cipher_word_pattern cw)).take
      candidates_per_word).filterMap (fun cand => mappingFromWords cw cand))

/-- The function `generate_freq_mapping` of `substitution.py`.  Since
`ENGLISH_FREQ` is not defined in that module's globals, the english
order is plain alphabet order; ties in the frequency sort keep
first-occurrence (Counter insertion) order. -/
def generate_freq_mapping (ciphertext : PyStr) : List (Int × Int) :=
  let letters := ciphertext.filter (fun c => isAlphaCode c)
  let mostCommon := letters.dedup.mergeSort (fun a b =>
    decide (letters.count b ≤ letters.count a))
  let base := mostCommon.enum.map (fun p =>
    (p.2, ALPHABET.getD (p.1 % 26) 65))
  let mappedVals := base.map Prod.snd
  let remainingPlain := ALPHABET.filter (fun p => !(mappedVals.contains p))
  let remainingCipher := ALPHABET.filter (fun c => (base.lookup c).isNone)
  base ++ remainingCipher.zip remainingPlain

/-- The COMMON_DIGRAMS set of `substitution.py` (30 pairs). -/
def COMMON_DIGRAMS : List (Int × Int) :=
  COMMON_BIGRAMS ++
    [(83, 69), (79, 85), (73, 79), (76, 69), (86, 69), (77, 69)]

/-- The function `digram_score` of `substitution.py`. -/
def digram_score (t : PyStr) : ℚ :=
  let letters := (pyUpper t).filter (fun c => isUpperCode c)
  if letters.length < 2 then 0
  else
    let digs := adjacentPairs letters
    if digs = [] then 0
    else ((digs.filter (fun d => COMMON_DIGRAMS.contains d)).length : ℚ) /
      digs.length

/-- The function `swap_mapping` of `substitution.py`: exchange the
plain letters assigned to two cipher letters. -/
def swap_mapping (mapping : List (Int × Int)) (a b : Int) :
    List (Int × Int) :=
  mapping.map (fun kv =>
    if kv.1 = a then (a, (mapping.lookup b).getD 63)
    else if kv.1 = b then (b, (mapping.lookup a).getD 63)
    else kv)

/-- The function `compose_mapping` of `substitution.py`, and the
`freq_map.copy()`-then-overlay step of `detect_substitution`: the seed
replacements shadow the base mapping. -/
def compose_mapping (base seed : List (Int × Int)) : List (Int × Int) :=
  base.map (fun kv =>
    match seed.lookup kv.1 with
    | some v => (kv.1, v)
    | none => kv) ++
  seed.filter (fun kv => (base.lookup kv.1).isNone)

/-- Modelled from the spec: the Python `random` module primitives used
by the substitution search (an external, unseeded source of
randomness), indexed by a running call counter. -/
structure Rng where
  float : Nat → ℚ
  pair : Nat → List Int → Int × Int
  shuffle : Nat → List Int → List Int
  choice : Nat → List Int → Int

/-- The `[^A-Z ]` cleaning applied to the ciphertext before annealing. -/
def saClean (t : PyStr) : PyStr :=
  (pyUpper t).filter (fun c => isUpperCode c || c = 32)

/-- The running state of one simulated-annealing chain. -/
structure SaState where
  currentMap : List (Int × Int)
  currentPlain : PyStr
  currentScoreH : ℚ
  currentDg : ℚ
  currentScore : ℚ
  bestMap : List (Int × Int)
  bestPlain : PyStr
  bestScoreH : ℚ
  bestDg : ℚ
  bestScore : ℚ
  temp : ℚ
  ctr : Nat

/-- One iteration body of `simulated_annealing`: propose a swap (both
branches of the 0.6 coin draw a random pair and swap it), score it, and
accept by the Metropolis criterion, tracking the best state seen. -/
def saStep (ext : Externals) (rng : Rng) (ctext : PyStr)
    (st : SaState) : SaState :=
  let coin := rng.float st.ctr
  let keys := st.currentMap.map Prod.fst
  let ab := rng.pair (st.ctr + 1) keys
  let candidateMap :=
    if coin < 0.6 then swap_mapping st.currentMap ab.1 ab.2
    else swap_mapping st.currentMap ab.1 ab.2
  let candidatePlain := apply_mapping_to_text ctext candidateMap
  let csH := hybrid_score ext candidatePlain
  let csDg := digram_score candidatePlain
  let cs := 0.9 * csH + 0.1 * csDg
  let accept1 := st.currentScore < cs
  let ctr2 := st.ctr + 2
  let accept :=
    accept1 ∨ rng.float ctr2 < ext.exp ((cs - st.currentScore) /
      max 1e-9 st.temp)
  let ctrNext := if accept1 then ctr2 else ctr2 + 1
  if accept then
    let best :=
      if st.bestScore < cs then
        (candidateMap, candidatePlain, csH, csDg, cs)
      else (st.bestMap, st.bestPlain, st.bestScoreH, st.bestDg, st.bestScore)
    { currentMap := candidateMap, currentPlain := candidatePlain,
      currentScoreH := csH, currentDg := csDg, currentScore := cs,
      bestMap := best.1, bestPlain := best.2.1, bestScoreH := best.2.2.1,
      bestDg := best.2.2.2.1, bestScore := best.2.2.2.2,
      temp := st.temp, ctr := ctrNext }
  else { st with ctr := ctrNext }

/-- The iteration loop of `simulated_annealing`: run up to the fuel
bound, cool after each step, and stop early once the temperature falls
below the threshold. -/
def saIter (ext : Externals) (rng : Rng) (ctext : PyStr) (cooling : ℚ) :
    Nat → SaState → SaState
  | 0, st => st
  | n + 1, st =>
    let st2 := saStep ext rng ctext st
    let st3 := { st2 with temp := st2.temp * cooling }
    if st3.temp < 1e-4 then st3 else saIter ext rng ctext cooling n st3

/-- The function `simulated_annealing` of `substitution.py`, returning
the best mapping, plaintext and combined score seen anywhere in the
chain. -/
def simulated_annealing (ext : Externals) (rng : Rng) (ciphertext : PyStr)
    (initialMap : List (Int × Int)) (max_iters : Nat := 2000)
    (init_temp : ℚ := 1) (cooling : ℚ := 0.995) (ctr : Nat := 0) :
    (List (Int × Int)) × PyStr × ℚ :=
  let ctext := saClean ciphertext
  let bestPlain := apply_mapping_to_text ctext initialMap
  let bestH := hybrid_score ext bestPlain
  let bestDg := digram_score bestPlain
  let bestScore := 0.9 * bestH + 0.1 * bestDg
  let st0 : SaState :=
    { currentMap := initialMap, currentPlain := bestPlain,
      currentScoreH := bestH, currentDg := bestDg,
      currentScore := bestScore, bestMap := initialMap,
      bestPlain := bestPlain, bestScoreH := bestH, bestDg := bestDg,
      bestScore := bestScore, temp := init_temp, ctr := ctr }
  let stF := saIter ext rng ctext cooling max_iters st0
  (stF.bestMap, stF.bestPlain, stF.bestScore)

/-- The full annealing chain state (used by `detect_substitution` to
keep threading the random call counter between restarts). -/
def simulated_annealing_state (ext : Externals) (rng : Rng)
    (ciphertext : PyStr) (initialMap : List (Int × Int))
    (max_iters : Nat) (init_temp : ℚ) (cooling : ℚ) (ctr : Nat) :
    SaState :=
  let ctext := saClean ciphertext
  let bestPlain := apply_mapping_to_text ctext initialMap
  let bestH := hybrid_score ext bestPlain
  let bestDg := digram_score bestPlain
  let bestScore := 0.9 * bestH + 0.1 * bestDg
  let st0 : SaState :=
    { currentMap := initialMap, currentPlain := bestPlain,
      currentScoreH := bestH, currentDg := bestDg,
      currentScore := bestScore, bestMap := initialMap,
      bestPlain := bestPlain, bestScoreH := bestH, bestDg := bestDg,
      bestScore := bestScore, temp := init_temp, ctr := ctr }
  saIter ext rng ctext cooling max_iters st0

/-- A random initial mapping: shuffle the frequency map's values, zip
them back onto its keys, and fill any missing alphabet key with a
random unused plain letter. -/
def randomInitMap (rng : Rng) (ctr : Nat) (freqMap : List (Int × Int)) :
    List (Int × Int) × Nat :=
  let vals := freqMap.map Prod.snd
  let vals2 := rng.shuffle ctr vals
  let shuffled := (freqMap.map Prod.fst).zip vals2
  ALPHABET.foldl (fun (acc : List (Int × Int) × Nat) ch =>
    if (acc.1.lookup ch).isSome then acc
    else
      let pool := ALPHABET.filter (fun p => !((acc.1.map Prod.snd).contains p))
      (acc.1 ++ [(ch, rng.choice acc.2 pool)], acc.2 + 1))
    (shuffled, ctr + 1)

/-- The deduplication key of an initial mapping (its image of the
alphabet, question marks for missing keys). -/
def mapKeyString (m : List (Int × Int)) : PyStr :=
  ALPHABET.map (fun ch => (m.lookup ch).getD 63)

/-- Candidate dictionaries produced by `detect_substitution`; `ai` and
`final_score` are attached by the transformer refinement step. -/
structure SubCand where
  text : PyStr
  score : ℚ
  ai : ℚ := 0
  final_score : Option ℚ := none
deriving DecidableEq

/-- The function `refine_with_transformer` of `english_scorer.py`,
specialized to substitution candidates. -/
def refine_with_transformer_sub (ext : Externals) (candidates : List SubCand)
    (top_k : Nat) : List SubCand :=
  if candidates = [] then []
  else
    let sorted := sortByDesc (fun c : SubCand => c.score) candidates
    let top := (sorted.take top_k).map (fun c =>
      let ai := ext.tscore c.text
      { c with ai := ai, final_score := some (round4 (c.score + 0.6 * ai)) })
    let rest := (sorted.drop top_k).map (fun c =>
      { c with ai := 0, final_score := some c.score })
    sortByDesc (fun c => c.final_score.getD c.score) (top ++ rest)

/-- The function `detect_substitution` of `substitution.py`: clean the
ciphertext, reject it as insufficient signal when fewer than six
letters remain, otherwise run pattern/frequency/random-seeded annealing
restarts, filter by the noise floor, deduplicate, and refine. -/
def detect_substitution (ext : Externals) (rng : Rng) (ciphertext : PyStr)
    (restarts : Nat := 30) (max_iters : Nat := 2000) (top_n : Nat := 5)
    (refine : Bool := true) : List SubCand :=
  let ctext := saClean ciphertext
  if (ctext.filter (fun c => isUpperCode c)).length < 6 then []
  else
    let seeds := seed_mappings_from_patterns ext.words ctext 6 6
    let freqMap := generate_freq_mapping ctext
    let seeded := seeds.map (fun s => compose_mapping freqMap s)
    let sh := (List.range 5).foldl
      (fun (acc : List (List (Int × Int)) × Nat) _ =>
        let r := randomInitMap rng acc.2 freqMap
        (acc.1 ++ [r.1], r.2)) ([], 0)
    let initialMaps := seeded ++ [freqMap] ++ sh.1
    let uniqInits := initialMaps.foldl (fun acc m =>
      if acc.any (fun m2 => mapKeyString m2 == mapKeyString m) then acc
      else acc ++ [m]) []
    let run := (List.range restarts).foldl
      (fun (acc : List SubCand × Nat) i =>
        let im :=
          if h : i < uniqInits.length then (uniqInits.get ⟨i, h⟩, acc.2)
          else randomInitMap rng acc.2 freqMap
        let stF := simulated_annealing_state ext rng ctext im.1 max_iters
          1 0.995 im.2
        let acc1 :=
          if 0.05 < stF.bestScore then
            acc.1 ++ [{ text := stF.bestPlain, score := round4 stF.bestScore }]
          else acc.1
        (acc1, stF.ctr)) ([], sh.2)
    let candidates := run.1
    if candidates = [] then []
    else
      let sortedC := sortByDesc (fun c : SubCand => c.score) candidates
      let unique := (sortedC.foldl (fun (acc : List SubCand × List PyStr) c =>
        let t := c.text.filter (fun ch => isUpperCode ch || ch = 32)
        if acc.2.contains t then acc else (acc.1 ++ [c], acc.2 ++ [t]))
        ([], [])).1
      let top := unique.take (max 10 top_n)
      if refine then
        let refined := refine_with_transformer_sub ext top
          (min 8 top.length)
        let refined2 := sortByDesc
          (fun c : SubCand => c.final_score.getD c.score) refined
        (refined2.take top_n).map (fun r =>
          { text := r.text, score := round4 (r.final_score.getD r.score) })
      else top.take top_n

-- ---------------------------------------------------------------------
-- Claim C8: short ciphertexts are rejected, not errored
-- ---------------------------------------------------------------------

theorem isUpper_toUpper (c : Int) :
    isUpperCode (toUpperCode c) = isAlphaCode c := by
  unfold toUpperCode
  by_cases hl : isLowerCode c = true
  · have hb := (isLowerCode_iff c).mp hl
    simp only [hl, if_true]
    have h1 : isUpperCode (c - 32) = true := (isUpperCode_iff _).mpr (by omega)
    have h2 : isAlphaCode c = true := (isAlphaCode_iff c).mpr (Or.inr hb)
    rw [h1, h2]
  · have hl2 : isLowerCode c = false := by
      revert hl; cases isLowerCode c <;> simp
    simp only [hl2, Bool.false_eq_true, if_false]
    unfold isAlphaCode
    rw [hl2, Bool.or_false]

theorem saClean_letter_count (ct : PyStr) :
    ((saClean ct).filter (fun c => isUpperCode c)).length =
      (ct.filter (fun c => isAlphaCode c)).length := by
  unfold saClean pyUpper
  rw [List.filter_filter, List.filter_map, List.length_map]
  congr 1
  apply List.filter_congr
  intro c _
  show (isUpperCode (toUpperCode c) &&
    (isUpperCode (toUpperCode c) || toUpperCode c = 32)) = isAlphaCode c
  cases hu : isUpperCode (toUpperCode c)
  · rw [Bool.false_and, ← isUpper_toUpper c, hu]
  · rw [Bool.true_and, Bool.true_or, ← isUpper_toUpper c, hu]

/-- C8: an input with fewer than six alphabetic characters makes
`detect_substitution` return the empty candidate list (a rejection, not
an error). -/
theorem claim_C8_short_input_rejected (ext : Externals) (rng : Rng)
    (ct : PyStr) (restarts max_iters top_n : Nat) (refine : Bool)
    (h : (ct.filter (fun c => isAlphaCode c)).length < 6) :
    detect_substitution ext rng ct restarts max_iters top_n refine = [] := by
  unfold detect_substitution
  have hc : ((saClean ct).filter (fun c => isUpperCode c)).length < 6 := by
    rw [saClean_letter_count]; exact h
  simp only [hc, if_pos]

/-- A trivial random source for concrete evaluations. -/
def rngZero : Rng where
  float := fun _ => 0
  pair := fun _ _ => (65, 66)
  shuffle := fun _ l => l
  choice := fun _ _ => 65

/-- Witness for C8: a five-letter input is rejected. -/
theorem claim_C8_short_input_rejected_witness :
    detect_substitution extZero rngZero (S "Ab, cd!") 30 2000 5 true = [] :=
  claim_C8_short_input_rejected extZero rngZero (S "Ab, cd!") 30 2000 5 true
    (by decide)

end CipherX
